import Mathlib

/-!
Verification of the core data pipeline of the financial-data dashboard
(`src/app.py`) against its specification.

The embedded components are:

* the Column Normalizer (`load_data`, lines 24-31): per-column
  `pd.to_numeric(..., errors='coerce')`, then
  `df[numeric_columns].fillna(df[numeric_columns].median())`, then
  `df['Customer_Segment'].fillna('Unknown')`;
* the Filter Engine (lines 52-56): boolean-mask selection
  `(Age >= lo) & (Age <= hi) & Customer_Segment.isin(labels)`;
* the Summary Reporter (line 60): `filtered_df.describe()` per numeric
  column (non-null count, mean, sample std with denominator n-1, min,
  linear-interpolation quartiles, max).

Modelling conventions:

* a cell of a numeric column is a `Val`: an already-numeric value
  (`Val.num`), a raw string (`Val.str`), or a missing value / NaN
  (`Val.na`);
* `pd.to_numeric(v, errors='coerce')` on one cell is `parseVal`;
  numeric strings go through a decimal parser `parseStr`;
* the `Customer_Segment` cell is an `Option String` where `none` plays
  the role of NaN; `pd.read_csv` turns an empty CSV field into NaN by
  its default NA handling, which `loadSeg` models;
* rationals stand in for the 64-bit floats of the source; comparisons
  against NaN are false, which `valGE`/`valLE`/`segIn` reproduce;
* the sample standard deviation reported by `describe` is represented
  by its square `stdSq : Option ℚ` (`none` encodes NaN, i.e. fewer
  than two observations); the actual standard deviation is its real
  square root.
-/

namespace Dashboard

/-- A cell of a numeric column as pandas sees it: a numeric value, a raw
string, or a missing value (NaN). -/
inductive Val where
  | num (q : ℚ)
  | str (s : String)
  | na
deriving DecidableEq

instance : Inhabited Val := ⟨Val.na⟩

/-- Numeric value of a list of decimal digits, most significant first. -/
def digitsToNat : ℕ → List Char → ℕ
  | acc, [] => acc
  | acc, c :: cs => digitsToNat (acc * 10 + (c.toNat - '0'.toNat)) cs

/-- Parse an unsigned decimal literal: digits with an optional single
fractional part, as accepted by `pd.to_numeric` for plain decimals. -/
def parseUnsigned (cs : List Char) : Option ℚ :=
  let intPart := cs.takeWhile Char.isDigit
  let rest := cs.dropWhile Char.isDigit
  if intPart.isEmpty then none
  else
    match rest with
    | [] => some (digitsToNat 0 intPart)
    | '.' :: frac =>
        if frac.isEmpty then none
        else if frac.all Char.isDigit then
          some ((digitsToNat 0 intPart : ℚ) +
            (digitsToNat 0 frac : ℚ) / (10 : ℚ) ^ frac.length)
        else none
    | _ => none

/-- Parse a signed decimal string; anything else is unparseable and is
coerced to missing by the Normalizer. -/
def parseStr (s : String) : Option ℚ :=
  match s.toList with
  | '-' :: cs => (parseUnsigned cs).map (fun q => -q)
  | cs => parseUnsigned cs

/-- `pd.to_numeric(v, errors='coerce')` on a single cell: numbers parse
to themselves, strings through the decimal parser, missing stays
missing. -/
def parseVal : Val → Option ℚ
  | Val.num q => some q
  | Val.str s => parseStr s
  | Val.na => none

/-- The 15 numeric columns of the schema, in source order; `Age` is
column 0. -/
def numericColumns : List String :=
  ["Age", "Annual_Income", "Monthly_Expenses", "Savings_Rate",
   "Debt_to_Income_Ratio", "Current_Investments_Value", "Total_Loan_Amount",
   "Avg_Credit_Score", "Inflation_Rate", "Interest_Rate", "Years_of_Employment",
   "Job_Stability_Score", "Emergency_Fund_Value", "Retirement_Fund_Contribution",
   "Future_Balance"]

/-- A row of the record table: the 15 numeric cells (indexed in the
order of `numericColumns`, so index 0 is `Age`), the
`Customer_Segment` cell, and the passthrough cells of any additional
columns. -/
@[ext]
structure Row where
  num : Fin 15 → Val
  seg : Option String
  extra : List Val
deriving DecidableEq

instance : Inhabited Row := ⟨⟨fun _ => Val.na, none, []⟩⟩

/-- `pd.read_csv` default NA handling for a `Customer_Segment` field:
an empty CSV field is loaded as NaN (`none`), everything else as the
string itself. -/
def loadSeg (raw : String) : Option String :=
  if raw = "" then none else some raw

/-- Sort a list of rationals ascending (`numpy` sorts before computing
a median or percentile). -/
def sortQ (xs : List ℚ) : List ℚ := xs.insertionSort (· ≤ ·)

/-- The median as `pandas.Series.median` computes it (via `numpy`):
middle element of the sorted values for odd count, average of the two
middle elements for even count. -/
def medianQ (xs : List ℚ) : ℚ :=
  let s := sortQ xs
  let n := s.length
  if n % 2 = 1 then s.getD (n / 2) 0
  else (s.getD (n / 2 - 1) 0 + s.getD (n / 2) 0) / 2

/-- The median of the set (parseable) values only; `none` when there is
no set value, matching the NaN that `median()` returns for an all-NaN
column. -/
def medianOpt (xs : List ℚ) : Option ℚ :=
  if xs.isEmpty then none else some (medianQ xs)

/-- `fillna` on one numeric cell after coercion: a parseable cell keeps
its parsed value; an unparseable cell takes the column median when one
exists, and otherwise stays NaN (`fillna` with a NaN filler is a
no-op). -/
def fillCell (med : Option ℚ) (c : Val) : Val :=
  match parseVal c with
  | some q => Val.num q
  | none =>
      match med with
      | some m => Val.num m
      | none => Val.na

/-- `df['Customer_Segment'].fillna('Unknown')` on one cell. -/
def fillSeg : Option String → Option String
  | none => some "Unknown"
  | some s => some s

/-- The set (parseable) values of numeric column `j`, in row order. -/
def colVals (t : List Row) (j : Fin 15) : List ℚ :=
  (t.map (fun r => r.num j)).filterMap parseVal

/-- `df[numeric_columns].median()` for column `j`: the median of the
set values of that column. -/
def medOf (t : List Row) (j : Fin 15) : Option ℚ :=
  medianOpt (colVals t j)

/-- Normalize one row given the per-column medians: coerce-and-fill
every numeric cell, fill the segment cell, keep passthrough cells. -/
def normRow (med : Fin 15 → Option ℚ) (r : Row) : Row :=
  { num := fun j => fillCell (med j) (r.num j)
    seg := fillSeg r.seg
    extra := r.extra }

/-- The Column Normalizer (`load_data` lines 24-31): per-column
numeric coercion, median imputation, and segment fill. -/
def normalize (t : List Row) : List Row :=
  t.map (normRow (medOf t))

/-- `df['Age'] >= lo` on one cell: false for NaN, as float comparisons
with NaN are. -/
def valGE (c : Val) (lo : ℚ) : Bool :=
  match c with
  | Val.num q => decide (lo ≤ q)
  | _ => false

/-- `df['Age'] <= hi` on one cell: false for NaN. -/
def valLE (c : Val) (hi : ℚ) : Bool :=
  match c with
  | Val.num q => decide (q ≤ hi)
  | _ => false

/-- `df['Customer_Segment'].isin(labels)` on one cell: membership of
the string, false for NaN. -/
def segIn (s : Option String) (labels : List String) : Bool :=
  match s with
  | some v => labels.contains v
  | none => false

/-- Boolean-mask row selection `df[mask]`: keep the rows whose mask
entry is true, in order. -/
def selectMask : List Row → List Bool → List Row
  | [], _ => []
  | _ :: _, [] => []
  | r :: t, b :: m => if b then r :: selectMask t m else selectMask t m

/-- The mask `df['Age'] >= lo`. -/
def ageMaskLo (t : List Row) (lo : ℚ) : List Bool :=
  t.map (fun r => valGE (r.num 0) lo)

/-- The mask `df['Age'] <= hi`. -/
def ageMaskHi (t : List Row) (hi : ℚ) : List Bool :=
  t.map (fun r => valLE (r.num 0) hi)

/-- The mask `df['Customer_Segment'].isin(labels)`. -/
def segMask (t : List Row) (labels : List String) : List Bool :=
  t.map (fun r => segIn r.seg labels)

/-- The Filter Engine (lines 52-56): conjoin the three masks with `&`
and select the rows where the combined mask is true. -/
def filterEngine (lo hi : ℚ) (labels : List String) (t : List Row) : List Row :=
  selectMask t
    (List.zipWith (· && ·)
      (List.zipWith (· && ·) (ageMaskLo t lo) (ageMaskHi t hi))
      (segMask t labels))

/-- The per-row predicate the three masks jointly express. -/
def rowPred (lo hi : ℚ) (labels : List String) (r : Row) : Bool :=
  (valGE (r.num 0) lo && valLE (r.num 0) hi) && segIn r.seg labels

/-- Linear interpolation into a list at fractional position `h`, as
`numpy.percentile` does on the sorted data: between the elements at
`⌊h⌋` and `⌊h⌋ + 1`, weighted by the fractional part. -/
def interpAt (s : List ℚ) (h : ℚ) : ℚ :=
  let i : ℕ := (⌊h⌋).toNat
  let a := s.getD i 0
  let b := s.getD (i + 1) a
  a + (h - (i : ℚ)) * (b - a)

/-- The `p`-quantile with `numpy`'s linear interpolation method, used
by `describe()` for the 25%, 50% and 75% rows: interpolate the sorted
values at position `p * (n - 1)`. -/
def quantileQ (p : ℚ) (xs : List ℚ) : ℚ :=
  interpAt (sortQ xs) (p * (((sortQ xs).length : ℚ) - 1))

/-- Arithmetic mean, as `describe()`'s `mean` row. -/
def meanQ (xs : List ℚ) : ℚ := xs.sum / (xs.length : ℚ)

/-- The square of `describe()`'s `std` row: the sample variance with
denominator `n - 1`; `none` encodes the NaN that pandas reports for
fewer than two observations. -/
def varQ (xs : List ℚ) : Option ℚ :=
  if xs.length < 2 then none
  else some ((xs.map fun x => (x - meanQ xs) ^ 2).sum / ((xs.length : ℚ) - 1))

/-- `describe()`'s `min` row: a fold of binary `min` over the values. -/
def minQ : List ℚ → ℚ
  | [] => 0
  | x :: xs => xs.foldl min x

/-- `describe()`'s `max` row: a fold of binary `max` over the values. -/
def maxQ : List ℚ → ℚ
  | [] => 0
  | x :: xs => xs.foldl max x

/-- The 8 statistics `describe()` reports for one numeric column. -/
structure Stats where
  count : ℕ
  mean : ℚ
  stdSq : Option ℚ
  minV : ℚ
  q25 : ℚ
  q50 : ℚ
  q75 : ℚ
  maxV : ℚ
deriving DecidableEq

/-- The Summary Reporter on one column of values
(`filtered_df.describe()`, line 60): count of (non-null) observations,
mean, sample standard deviation (represented by its square), min,
linear-interpolation quartiles, max. -/
def describeQ (xs : List ℚ) : Stats :=
  { count := xs.length
    mean := meanQ xs
    stdSq := varQ xs
    minV := minQ xs
    q25 := quantileQ (1/4) xs
    q50 := quantileQ (1/2) xs
    q75 := quantileQ (3/4) xs
    maxV := maxQ xs }

/-- The Summary Reporter on numeric column `j` of a table: pandas
computes each statistic over the column's non-null values. -/
def describeTable (t : List Row) (j : Fin 15) : Stats :=
  describeQ (colVals t j)

/-- Spec-side statement, following the spec's words (§4.4): for a
table whose column `j` is fully set, the reporter yields the row
count, the arithmetic mean, the sample standard deviation with
denominator `n - 1` (NaN exactly when `n < 2`; its square times
`n - 1` recovers the sum of squared deviations, and the standard
deviation itself is the real square root of the reported square), the
minimum, the 25th/50th/75th percentiles by linear interpolation (the
50th being the standard median, and the quartiles lying between min
and max), and the maximum. The reporter is a pure function of the
column values, so it cannot mutate its input. -/
def specStatsCorrect (t : List Row) (j : Fin 15) : Prop :=
  (describeTable t j).count = t.length ∧
  (describeTable t j).mean * (t.length : ℚ) = (colVals t j).sum ∧
  ((describeTable t j).stdSq = none ↔ t.length < 2) ∧
  (∀ v, (describeTable t j).stdSq = some v →
    0 ≤ v ∧
    v * ((t.length : ℚ) - 1) =
      ((colVals t j).map fun x => (x - (describeTable t j).mean) ^ 2).sum ∧
    Real.sqrt (v : ℝ) ^ 2 = (v : ℝ)) ∧
  ((describeTable t j).minV ∈ colVals t j ∧
    ∀ y ∈ colVals t j, (describeTable t j).minV ≤ y) ∧
  ((describeTable t j).maxV ∈ colVals t j ∧
    ∀ y ∈ colVals t j, y ≤ (describeTable t j).maxV) ∧
  (describeTable t j).q50 = medianQ (colVals t j) ∧
  ((describeTable t j).minV ≤ (describeTable t j).q25 ∧
    (describeTable t j).q25 ≤ (describeTable t j).maxV) ∧
  ((describeTable t j).minV ≤ (describeTable t j).q75 ∧
    (describeTable t j).q75 ≤ (describeTable t j).maxV)

/-! ### Basic facts about cells and the Normalizer -/

lemma parseVal_num (q : ℚ) : parseVal (Val.num q) = some q := rfl

lemma parseVal_na : parseVal Val.na = none := rfl

lemma fillCell_of_parse {c : Val} {q : ℚ} (med : Option ℚ)
    (h : parseVal c = some q) : fillCell med c = Val.num q := by
  simp only [fillCell, h]

lemma fillCell_of_unset_some {c : Val} (m : ℚ)
    (h : parseVal c = none) : fillCell (some m) c = Val.num m := by
  simp only [fillCell, h]

lemma fillCell_of_unset_none {c : Val}
    (h : parseVal c = none) : fillCell none c = Val.na := by
  simp only [fillCell, h]

lemma length_normalize (t : List Row) : (normalize t).length = t.length := by
  simp [normalize]

lemma getD_map_of_lt (f : Row → Row) (t : List Row) {i : ℕ}
    (h : i < t.length) (d : Row) : (t.map f).getD i d = f (t.getD i d) := by
  rw [List.getD_eq_getElem _ _ (by simpa using h), List.getElem_map,
    List.getD_eq_getElem _ _ h]

lemma normalize_getD {t : List Row} {i : ℕ} (h : i < t.length) (d : Row) :
    (normalize t).getD i d = normRow (medOf t) (t.getD i d) :=
  getD_map_of_lt _ t h d

lemma medOf_eq_none_iff (t : List Row) (j : Fin 15) :
    medOf t j = none ↔ colVals t j = [] := by
  by_cases h : colVals t j = [] <;>
    simp [medOf, medianOpt, List.isEmpty_iff, h]

lemma medOf_eq_some (t : List Row) (j : Fin 15) (h : colVals t j ≠ []) :
    medOf t j = some (medianQ (colVals t j)) := by
  simp [medOf, medianOpt, List.isEmpty_iff, h]

lemma colVals_eq_nil_iff (t : List Row) (j : Fin 15) :
    colVals t j = [] ↔ ∀ r ∈ t, parseVal (r.num j) = none := by
  simp [colVals, List.filterMap_eq_nil_iff]

lemma colVals_normalize_eq_nil {t : List Row} {j : Fin 15}
    (h : colVals t j = []) : colVals (normalize t) j = [] := by
  have hall : ∀ r ∈ t, parseVal (r.num j) = none := (colVals_eq_nil_iff t j).1 h
  have hmed : medOf t j = none := (medOf_eq_none_iff t j).2 h
  rw [colVals_eq_nil_iff]
  intro r' hr'
  simp only [normalize, List.mem_map] at hr'
  obtain ⟨r, hr, rfl⟩ := hr'
  show parseVal (fillCell (medOf t j) (r.num j)) = none
  rw [hmed, fillCell_of_unset_none (hall r hr), parseVal_na]

lemma fillSeg_fillSeg (s : Option String) : fillSeg (fillSeg s) = fillSeg s := by
  cases s <;> rfl

lemma fillCell_fillCell {med med' : Option ℚ} (h : med = none → med' = none)
    (c : Val) : fillCell med' (fillCell med c) = fillCell med c := by
  cases hp : parseVal c with
  | some q =>
      rw [fillCell_of_parse med hp, fillCell_of_parse med' (parseVal_num q)]
  | none =>
      cases hm : med with
      | some m =>
          rw [fillCell_of_unset_some m hp, fillCell_of_parse med' (parseVal_num m)]
      | none =>
          rw [fillCell_of_unset_none hp, h hm, fillCell_of_unset_none parseVal_na]

/-! ### C4: row count is preserved -/

/-- **C4.** For every input table, the normalized table has exactly the
same number of rows as the input: normalization never drops or adds
rows, regardless of how many cells are unparseable or missing. -/
theorem normalize_preserves_row_count (t : List Row) :
    (normalize t).length = t.length :=
  length_normalize t

/-! ### C5: the Normalizer is idempotent -/

/-- **C5.** The Normalizer is idempotent: applying it to its own output
changes no value (the second pass is a no-op). In the source,
normalization always returns a table, so no success hypothesis is
needed. -/
theorem normalize_idempotent (t : List Row) :
    normalize (normalize t) = normalize t := by
  have key : ∀ j, medOf t j = none → medOf (normalize t) j = none := by
    intro j h
    exact (medOf_eq_none_iff _ _).2
      (colVals_normalize_eq_nil ((medOf_eq_none_iff _ _).1 h))
  conv_lhs => rw [normalize, normalize, List.map_map]
  rw [normalize]
  refine List.map_congr_left ?_
  intro r _
  show normRow (medOf (normalize t)) (normRow (medOf t) r) = normRow (medOf t) r
  ext1
  · funext j
    exact fillCell_fillCell (key j) (r.num j)
  · exact fillSeg_fillSeg r.seg
  · rfl

/-! ### Concrete tables for counterexamples and witnesses -/

/-- A row all of whose numeric cells are missing. -/
def rowAllNa : Row := { num := fun _ => Val.na, seg := some "Gold", extra := [] }

/-- A row with a given `Age` cell (column 0) and all other numeric
cells missing. -/
def mkRowAge (c : Val) : Row :=
  { num := fun j => if j = 0 then c else Val.na, seg := some "Gold", extra := [] }

/-- The spec example column `[10, "bad", 20, "", 30]` placed in the
`Age` column: set values `[10, 20, 30]`, median `20`. -/
def tableC1w : List Row :=
  [mkRowAge (Val.num 10), mkRowAge (Val.str "bad"), mkRowAge (Val.num 20),
   mkRowAge Val.na, mkRowAge (Val.num 30)]

/-- A two-row table whose numeric columns have zero parseable values. -/
def tableC3 : List Row := [rowAllNa, rowAllNa]

/-! ### C1: median imputation of numeric columns -/

/-- **C1 (amended).** For every input table and numeric column **that
has at least one originally-set value**, after normalization no cell of
that column is unset, and every cell that was originally unset holds
the column's median computed over only the originally-set values,
using the standard median definition. (The claim's unrestricted form
fails when a column has zero set values; see the counterexample.) -/
theorem normalize_median_imputation (t : List Row) (j : Fin 15)
    (h : colVals t j ≠ []) :
    medOf t j = some (medianQ (colVals t j)) ∧
    (∀ r' ∈ normalize t, ∃ q, r'.num j = Val.num q) ∧
    (∀ i, i < t.length →
      (∀ q, parseVal ((t.getD i default).num j) = some q →
        ((normalize t).getD i default).num j = Val.num q) ∧
      (parseVal ((t.getD i default).num j) = none →
        ((normalize t).getD i default).num j =
          Val.num (medianQ (colVals t j)))) := by
  have hm := medOf_eq_some t j h
  refine ⟨hm, ?_, ?_⟩
  · intro r' hr'
    simp only [normalize, List.mem_map] at hr'
    obtain ⟨r, hr, rfl⟩ := hr'
    show ∃ q, fillCell (medOf t j) (r.num j) = Val.num q
    cases hp : parseVal (r.num j) with
    | some q => exact ⟨q, fillCell_of_parse _ hp⟩
    | none => exact ⟨_, by rw [hm]; exact fillCell_of_unset_some _ hp⟩
  · intro i hi
    rw [normalize_getD hi default]
    constructor
    · intro q hq
      show fillCell (medOf t j) _ = _
      exact fillCell_of_parse _ hq
    · intro hq
      show fillCell (medOf t j) _ = _
      rw [hm]
      exact fillCell_of_unset_some _ hq

/-- **C1 counterexample.** On a table whose `Age` column has zero
parseable values, normalization leaves the cell unset, refuting the
claim's unrestricted "after normalization no cell of that column is
unset". -/
theorem normalize_median_imputation_counterexample :
    ((normalize [rowAllNa]).getD 0 default).num 0 = Val.na := by decide

/-- **C1 witness.** The amended theorem applied to the spec's own
example column `[10, "bad", 20, missing, 30]`: set values `[10,20,30]`,
median `20`. -/
theorem normalize_median_imputation_witness :
    colVals tableC1w 0 ≠ [] ∧
    medianQ (colVals tableC1w 0) = 20 ∧
    (medOf tableC1w 0 = some (medianQ (colVals tableC1w 0)) ∧
     (∀ r' ∈ normalize tableC1w, ∃ q, r'.num 0 = Val.num q) ∧
     (∀ i, i < tableC1w.length →
       (∀ q, parseVal ((tableC1w.getD i default).num 0) = some q →
         ((normalize tableC1w).getD i default).num 0 = Val.num q) ∧
       (parseVal ((tableC1w.getD i default).num 0) = none →
         ((normalize tableC1w).getD i default).num 0 =
           Val.num (medianQ (colVals tableC1w 0))))) :=
  ⟨by decide, by decide, normalize_median_imputation tableC1w 0 (by decide)⟩

/-! ### C3: behavior on a column with zero parseable values -/

/-- **C3 counterexample.** The code contradicts the claim: on a table
whose numeric columns have zero parseable values, `load_data` does not
fail — `median()` returns NaN and `fillna(NaN)` is a no-op — so the
Normalizer returns a table of the same length that still has an unset
cell. -/
theorem noValidData_counterexample :
    (normalize tableC3).length = tableC3.length ∧
    ((normalize tableC3).getD 0 default).num 0 = Val.na := by decide

/-- **C3 (amended).** If a numeric column has zero parseable values,
the Normalizer does not fail with `NoValidDataError`: it returns a
table of the same row count and silently leaves every cell of that
column unset (NaN). -/
theorem normalize_total_on_empty_column (t : List Row) (j : Fin 15)
    (h : colVals t j = []) :
    (normalize t).length = t.length ∧
    ∀ r' ∈ normalize t, r'.num j = Val.na := by
  refine ⟨length_normalize t, ?_⟩
  have hall := (colVals_eq_nil_iff t j).1 h
  have hmed := (medOf_eq_none_iff t j).2 h
  intro r' hr'
  simp only [normalize, List.mem_map] at hr'
  obtain ⟨r, hr, rfl⟩ := hr'
  show fillCell (medOf t j) (r.num j) = Val.na
  rw [hmed, fillCell_of_unset_none (hall r hr)]

/-- **C3 witness.** The amended theorem applied to the concrete
all-unset table. -/
theorem normalize_total_on_empty_column_witness :
    colVals tableC3 0 = [] ∧
    ((normalize tableC3).length = tableC3.length ∧
     ∀ r' ∈ normalize tableC3, r'.num 0 = Val.na) :=
  ⟨by decide, normalize_total_on_empty_column tableC3 0 (by decide)⟩

/-! ### C6: categorical fill with "Unknown" -/

/-- **C6.** Normalization of `Customer_Segment` replaces every missing
cell with the literal `"Unknown"` and leaves every other cell
unchanged; an empty CSV field is loaded as missing by `read_csv`'s
default NA handling (`loadSeg`), so empty cells are also replaced. -/
theorem segment_fill_unknown (t : List Row) (i : ℕ) (hi : i < t.length) :
    (((t.getD i default).seg = none →
        ((normalize t).getD i default).seg = some "Unknown") ∧
      ∀ s, (t.getD i default).seg = some s →
        ((normalize t).getD i default).seg = some s) ∧
    ∀ raw : String,
      fillSeg (loadSeg raw) = some (if raw = "" then "Unknown" else raw) := by
  constructor
  · rw [normalize_getD hi default]
    constructor
    · intro h
      show fillSeg _ = _
      rw [h]
      rfl
    · intro s h
      show fillSeg _ = _
      rw [h]
      rfl
  · intro raw
    by_cases h : raw = "" <;> simp [loadSeg, fillSeg, h]

/-- Two rows, one with a missing segment cell, one with `"Gold"`. -/
def tableC6 : List Row :=
  [{ num := fun _ => Val.na, seg := none, extra := [] },
   { num := fun _ => Val.na, seg := some "Gold", extra := [] }]

/-- **C6 witness.** The theorem applied at row 0 of the concrete
table whose segment cell is missing. -/
theorem segment_fill_unknown_witness :
    0 < tableC6.length ∧
    ((((tableC6.getD 0 default).seg = none →
        ((normalize tableC6).getD 0 default).seg = some "Unknown") ∧
      ∀ s, (tableC6.getD 0 default).seg = some s →
        ((normalize tableC6).getD 0 default).seg = some s) ∧
     ∀ raw : String,
       fillSeg (loadSeg raw) = some (if raw = "" then "Unknown" else raw)) :=
  ⟨by decide, segment_fill_unknown tableC6 0 (by decide)⟩

/-! ### C8: frame — only numeric columns and the segment are altered -/

/-- **C8.** The Normalizer alters only the numeric columns and
`Customer_Segment`: the passthrough cells of every row are unchanged,
and rows stay in place (the `i`-th output row comes from the `i`-th
input row; the column structure of `Row` is preserved by
construction). -/
theorem normalize_frame (t : List Row) (i : ℕ) (hi : i < t.length) :
    (normalize t).length = t.length ∧
    ((normalize t).getD i default).extra = (t.getD i default).extra := by
  refine ⟨length_normalize t, ?_⟩
  rw [normalize_getD hi default]
  rfl

/-- A one-row table carrying a passthrough cell. -/
def tableC8 : List Row :=
  [{ num := fun _ => Val.num 1, seg := some "Gold", extra := [Val.str "note"] }]

/-- **C8 witness.** The frame theorem applied to the concrete table
with a passthrough cell. -/
theorem normalize_frame_witness :
    0 < tableC8.length ∧
    ((normalize tableC8).length = tableC8.length ∧
     ((normalize tableC8).getD 0 default).extra =
       (tableC8.getD 0 default).extra) :=
  ⟨by decide, normalize_frame tableC8 0 (by decide)⟩

/-! ### The Filter Engine: mask selection refines list filtering -/

lemma selectMask_map (t : List Row) (f : Row → Bool) :
    selectMask t (t.map f) = t.filter f := by
  induction t with
  | nil => rfl
  | cons r t ih =>
      simp only [List.map_cons, selectMask, List.filter_cons]
      by_cases h : f r <;> simp [h, ih]

lemma zipWith_and_maps (f g : Row → Bool) (t : List Row) :
    List.zipWith (· && ·) (t.map f) (t.map g) = t.map fun r => f r && g r := by
  induction t with
  | nil => rfl
  | cons r t ih => simp [ih]

/-- The three conjoined boolean masks select exactly `List.filter` of
the conjoined row predicate. -/
lemma filterEngine_eq_filter (lo hi : ℚ) (L : List String) (t : List Row) :
    filterEngine lo hi L t = t.filter (rowPred lo hi L) := by
  unfold filterEngine ageMaskLo ageMaskHi segMask
  rw [zipWith_and_maps, zipWith_and_maps, selectMask_map]
  rfl

/-- What the combined mask means for one row: a numeric `Age` within
the inclusive range, and an allowed segment label. -/
lemma rowPred_iff (lo hi : ℚ) (L : List String) (r : Row) :
    rowPred lo hi L r = true ↔
      (∃ q, r.num 0 = Val.num q ∧ lo ≤ q ∧ q ≤ hi) ∧
        segIn r.seg L = true := by
  unfold rowPred valGE valLE
  cases hc : r.num 0 with
  | num q =>
      simp only [Bool.and_eq_true, decide_eq_true_eq, Val.num.injEq]
      constructor
      · rintro ⟨⟨h1, h2⟩, h3⟩
        exact ⟨⟨q, rfl, h1, h2⟩, h3⟩
      · rintro ⟨⟨q', hq, h1, h2⟩, h3⟩
        cases hq
        exact ⟨⟨h1, h2⟩, h3⟩
  | str s => simp [hc]
  | na => simp [hc]

/-! ### C2: the Filter Engine returns exactly the matching rows -/

/-- **C2.** For every table, range and label set, the Filter Engine
returns exactly the rows whose `Age` is a number in `[lo, hi]` and
whose segment is allowed, as an order-preserving subsequence of the
table; in particular when `lo = hi`, rows with `Age = lo` are
included. -/
theorem filter_engine_exact (lo hi : ℚ) (L : List String) (t : List Row) :
    filterEngine lo hi L t = t.filter (rowPred lo hi L) ∧
    (filterEngine lo hi L t).Sublist t ∧
    (∀ r, r ∈ filterEngine lo hi L t ↔
      r ∈ t ∧ (∃ q, r.num 0 = Val.num q ∧ lo ≤ q ∧ q ≤ hi) ∧
        segIn r.seg L = true) ∧
    (∀ r, r ∈ t → r.num 0 = Val.num lo → segIn r.seg L = true →
      r ∈ filterEngine lo lo L t) := by
  refine ⟨filterEngine_eq_filter lo hi L t, ?_, ?_, ?_⟩
  · rw [filterEngine_eq_filter]
    exact List.filter_sublist t
  · intro r
    rw [filterEngine_eq_filter, List.mem_filter, rowPred_iff]
  · intro r hr hage hseg
    rw [filterEngine_eq_filter, List.mem_filter]
    exact ⟨hr, (rowPred_iff lo lo L r).2 ⟨⟨lo, hage, le_refl lo, le_refl lo⟩, hseg⟩⟩

/-- A row with numeric `Age` `a` and segment `s`; other numeric cells
missing. -/
def mkRowAS (a : ℚ) (s : String) : Row :=
  { num := fun j => if j = 0 then Val.num a else Val.na
    seg := some s
    extra := [] }

/-- The spec's filtering example: ages 25, 40, 60 with segments Gold,
Gold, Silver. -/
def tableC2 : List Row := [mkRowAS 25 "Gold", mkRowAS 40 "Gold", mkRowAS 60 "Silver"]

/-- **C2 witness.** The boundary part applied concretely: with
`lo = hi = 40`, the row with `Age = 40` and an allowed segment is in
the result. -/
theorem filter_engine_exact_witness :
    mkRowAS 40 "Gold" ∈ tableC2 ∧
    mkRowAS 40 "Gold" ∈ filterEngine 40 40 ["Gold"] tableC2 :=
  ⟨by decide, (filter_engine_exact 40 40 ["Gold"] tableC2).2.2.2 _
    (by decide) (by decide) (by decide)⟩

/-! ### C7: degenerate filter inputs yield empty results, not errors -/

/-- **C7.** The Filter Engine is total, and degenerate inputs yield
empty results: an empty allowed-labels set gives `[]` for every range,
and a range with `lo > hi` gives `[]` for every label set. -/
theorem filter_engine_degenerate (t : List Row) (lo hi : ℚ) (L : List String) :
    filterEngine lo hi [] t = [] ∧
    (hi < lo → filterEngine lo hi L t = []) := by
  constructor
  · rw [filterEngine_eq_filter]
    rw [List.filter_eq_nil_iff]
    intro r _
    have : segIn r.seg [] = false := by cases r.seg <;> rfl
    simp [rowPred, this]
  · intro hlt
    rw [filterEngine_eq_filter]
    rw [List.filter_eq_nil_iff]
    intro r _
    intro hp
    obtain ⟨⟨q, _, h1, h2⟩, _⟩ := (rowPred_iff lo hi L r).1 hp
    exact absurd (le_trans h1 h2) (not_le.2 hlt)

/-- A one-row table for exercising the degenerate filter inputs. -/
def tableC7 : List Row := [mkRowAS 40 "Gold"]

/-- **C7 witness.** Both degenerate cases applied concretely: empty
label set, and the reversed range `[5, 3]`. -/
theorem filter_engine_degenerate_witness :
    filterEngine 30 50 [] tableC7 = [] ∧
    (3 : ℚ) < 5 ∧
    filterEngine 5 3 ["Gold"] tableC7 = [] :=
  ⟨(filter_engine_degenerate tableC7 30 50 ["Gold"]).1, by decide,
   (filter_engine_degenerate tableC7 5 3 ["Gold"]).2 (by decide)⟩

/-! ### C10: rows with imputed Age filter by the median -/

/-- **C10.** Filtering runs on the normalized table, so a row whose
`Age` cell was originally unparseable or missing is included or
excluded according to the imputed value — the `Age` column's median —
not excluded outright: it is in the filter result iff
`lo ≤ median ≤ hi` and its (normalized) segment is allowed. -/
theorem imputed_age_filtering (t : List Row) (lo hi : ℚ) (L : List String)
    (m : ℚ) (i : ℕ) (hlen : i < t.length)
    (hna : parseVal ((t.getD i default).num 0) = none)
    (hm : medOf t 0 = some m) :
    ((normalize t).getD i default ∈ filterEngine lo hi L (normalize t) ↔
      lo ≤ m ∧ m ≤ hi ∧
        segIn (fillSeg ((t.getD i default).seg)) L = true) := by
  have hmem : (normalize t).getD i default ∈ normalize t := by
    rw [List.getD_eq_getElem _ _ (by rw [length_normalize]; exact hlen)]
    exact List.getElem_mem _
  have hage : ((normalize t).getD i default).num 0 = Val.num m := by
    rw [normalize_getD hlen default]
    show fillCell (medOf t 0) _ = _
    rw [hm]
    exact fillCell_of_unset_some _ hna
  have hseg : ((normalize t).getD i default).seg =
      fillSeg ((t.getD i default).seg) := by
    rw [normalize_getD hlen default]
    rfl
  rw [filterEngine_eq_filter, List.mem_filter, rowPred_iff]
  constructor
  · rintro ⟨_, ⟨q, hq, h1, h2⟩, hs⟩
    rw [hage, Val.num.injEq] at hq
    cases hq
    exact ⟨h1, h2, by rwa [hseg] at hs⟩
  · rintro ⟨h1, h2, hs⟩
    exact ⟨hmem, ⟨m, hage, h1, h2⟩, by rwa [hseg]⟩

/-- Three set ages 10, 20, 30 (median 20) plus one row whose `Age` is
missing. -/
def tableC10 : List Row :=
  [mkRowAS 10 "Gold", mkRowAS 20 "Gold", mkRowAS 30 "Gold", mkRowAge Val.na]

/-- **C10 witness.** The concrete missing-`Age` row is filtered by the
imputed median 20: with range `[15, 25]` and label `"Gold"` the
if-and-only-if is settled by the theorem. -/
theorem imputed_age_filtering_witness :
    (3 < tableC10.length ∧
     parseVal ((tableC10.getD 3 default).num 0) = none ∧
     medOf tableC10 0 = some 20) ∧
    ((normalize tableC10).getD 3 default ∈
        filterEngine 15 25 ["Gold"] (normalize tableC10) ↔
      (15 : ℚ) ≤ 20 ∧ (20 : ℚ) ≤ 25 ∧
        segIn (fillSeg ((tableC10.getD 3 default).seg)) ["Gold"] = true) :=
  ⟨⟨by decide, by decide, by decide⟩,
   imputed_age_filtering tableC10 15 25 ["Gold"] 20 3
     (by decide) (by decide) (by decide)⟩

/-! ### Folds, sorted lists and linear interpolation -/

lemma length_sortQ (xs : List ℚ) : (sortQ xs).length = xs.length :=
  List.length_insertionSort (· ≤ ·) xs

lemma mem_sortQ {xs : List ℚ} {y : ℚ} : y ∈ sortQ xs ↔ y ∈ xs :=
  List.mem_insertionSort (· ≤ ·)

lemma sorted_sortQ (xs : List ℚ) : (sortQ xs).Sorted (· ≤ ·) :=
  List.sorted_insertionSort (· ≤ ·) xs

lemma foldl_min_le_init : ∀ (l : List ℚ) (a : ℚ), l.foldl min a ≤ a
  | [], a => le_refl a
  | x :: l, a => le_trans (foldl_min_le_init l (min a x)) (min_le_left a x)

lemma foldl_min_le_mem : ∀ (l : List ℚ) (a y : ℚ), y ∈ l → l.foldl min a ≤ y
  | [], _, y, hy => absurd hy (List.not_mem_nil y)
  | x :: l, a, y, hy => by
      rcases List.mem_cons.1 hy with h | h
      · subst h
        exact le_trans (foldl_min_le_init l (min a y)) (min_le_right a y)
      · exact foldl_min_le_mem l (min a x) y h

lemma foldl_min_mem : ∀ (l : List ℚ) (a : ℚ), l.foldl min a = a ∨ l.foldl min a ∈ l
  | [], _ => Or.inl rfl
  | x :: l, a => by
      rcases foldl_min_mem l (min a x) with h | h
      · rcases le_total a x with hax | hax
        · exact Or.inl (by rw [List.foldl_cons, h, min_eq_left hax])
        · refine Or.inr ?_
          rw [List.foldl_cons, h, min_eq_right hax]
          exact List.mem_cons_self x l
      · exact Or.inr (List.mem_cons_of_mem x h)

lemma foldl_max_init_le : ∀ (l : List ℚ) (a : ℚ), a ≤ l.foldl max a
  | [], a => le_refl a
  | x :: l, a => le_trans (le_max_left a x) (foldl_max_init_le l (max a x))

lemma foldl_max_mem_le : ∀ (l : List ℚ) (a y : ℚ), y ∈ l → y ≤ l.foldl max a
  | [], _, y, hy => absurd hy (List.not_mem_nil y)
  | x :: l, a, y, hy => by
      rcases List.mem_cons.1 hy with h | h
      · subst h
        exact le_trans (le_max_right a y) (foldl_max_init_le l (max a y))
      · exact foldl_max_mem_le l (max a x) y h

lemma foldl_max_mem : ∀ (l : List ℚ) (a : ℚ), l.foldl max a = a ∨ l.foldl max a ∈ l
  | [], _ => Or.inl rfl
  | x :: l, a => by
      rcases foldl_max_mem l (max a x) with h | h
      · rcases le_total a x with hax | hax
        · refine Or.inr ?_
          rw [List.foldl_cons, h, max_eq_right hax]
          exact List.mem_cons_self x l
        · exact Or.inl (by rw [List.foldl_cons, h, max_eq_left hax])
      · exact Or.inr (List.mem_cons_of_mem x h)

lemma minQ_le {xs : List ℚ} : ∀ y ∈ xs, minQ xs ≤ y := by
  cases xs with
  | nil => intro y hy; exact absurd hy (List.not_mem_nil y)
  | cons x l =>
      intro y hy
      rcases List.mem_cons.1 hy with h | h
      · subst h; exact foldl_min_le_init l y
      · exact foldl_min_le_mem l x y h

lemma minQ_mem {xs : List ℚ} (h : xs ≠ []) : minQ xs ∈ xs := by
  cases xs with
  | nil => exact absurd rfl h
  | cons x l =>
      have e : minQ (x :: l) = l.foldl min x := rfl
      rw [e]
      rcases foldl_min_mem l x with h' | h'
      · rw [h']; exact List.mem_cons_self x l
      · exact List.mem_cons_of_mem x h'

lemma maxQ_ge {xs : List ℚ} : ∀ y ∈ xs, y ≤ maxQ xs := by
  cases xs with
  | nil => intro y hy; exact absurd hy (List.not_mem_nil y)
  | cons x l =>
      intro y hy
      rcases List.mem_cons.1 hy with h | h
      · subst h; exact foldl_max_init_le l y
      · exact foldl_max_mem_le l x y h

lemma maxQ_mem {xs : List ℚ} (h : xs ≠ []) : maxQ xs ∈ xs := by
  cases xs with
  | nil => exact absurd rfl h
  | cons x l =>
      have e : maxQ (x :: l) = l.foldl max x := rfl
      rw [e]
      rcases foldl_max_mem l x with h' | h'
      · rw [h']; exact List.mem_cons_self x l
      · exact List.mem_cons_of_mem x h'

lemma interpAt_eq (s : List ℚ) (h : ℚ) :
    interpAt s h =
      s.getD (⌊h⌋).toNat 0 +
        (h - (((⌊h⌋).toNat : ℕ) : ℚ)) *
          (s.getD ((⌊h⌋).toNat + 1) (s.getD (⌊h⌋).toNat 0) -
            s.getD (⌊h⌋).toNat 0) := rfl

lemma interpAt_natCast (s : List ℚ) (k : ℕ) :
    interpAt s (k : ℚ) = s.getD k 0 := by
  rw [interpAt_eq, Int.floor_natCast, Int.toNat_natCast]
  ring

lemma interpAt_half (s : List ℚ) (k : ℕ) (hk1 : 1 ≤ k) (hk : k < s.length) :
    interpAt s ((k : ℚ) - 1/2) = (s.getD (k - 1) 0 + s.getD k 0) / 2 := by
  have hfl : ⌊(k : ℚ) - 1/2⌋ = (k : ℤ) - 1 := by
    rw [Int.floor_eq_iff]
    constructor
    · push_cast
      linarith
    · push_cast
      linarith
  have htn : ((k : ℤ) - 1).toNat = k - 1 := by omega
  have hidx : (k - 1) + 1 = k := by omega
  have hbd : s.getD ((k - 1) + 1) (s.getD (k - 1) 0) = s.getD k 0 := by
    rw [hidx, List.getD_eq_getElem _ _ hk, List.getD_eq_getElem _ _ hk]
  rw [interpAt_eq, hfl, htn, hbd, Nat.cast_sub hk1]
  push_cast
  ring

lemma interpAt_between {s : List ℚ} (hsort : s.Sorted (· ≤ ·)) {h : ℚ}
    (h0 : 0 ≤ h) (h1 : h ≤ (s.length : ℚ) - 1) :
    (∃ x ∈ s, x ≤ interpAt s h) ∧ (∃ x ∈ s, interpAt s h ≤ x) := by
  have hfl0 : (0 : ℤ) ≤ ⌊h⌋ := Int.floor_nonneg.2 h0
  have hicast : (((⌊h⌋).toNat : ℕ) : ℚ) = ((⌊h⌋ : ℤ) : ℚ) := by
    exact_mod_cast congrArg (fun z : ℤ => (z : ℚ)) (Int.toNat_of_nonneg hfl0)
  have hile : (((⌊h⌋).toNat : ℕ) : ℚ) ≤ h := by
    rw [hicast]; exact Int.floor_le h
  have hlt1 : h < (((⌊h⌋).toNat : ℕ) : ℚ) + 1 := by
    rw [hicast]; exact Int.lt_floor_add_one h
  have hin : (⌊h⌋).toNat < s.length := by
    have hq : (((⌊h⌋).toNat : ℕ) : ℚ) < (s.length : ℚ) :=
      lt_of_le_of_lt hile (by linarith)
    exact_mod_cast hq
  rw [interpAt_eq]
  set i : ℕ := (⌊h⌋).toNat with hidef
  set a : ℚ := s.getD i 0 with hadef
  have hmem_a : a ∈ s := by
    rw [hadef, List.getD_eq_getElem _ _ hin]
    exact List.getElem_mem _
  by_cases hb : i + 1 < s.length
  · have hab : a ≤ s.getD (i + 1) a := by
      rw [hadef, List.getD_eq_getElem _ _ hb, List.getD_eq_getElem _ _ hin]
      have hmono := hsort.rel_get_of_lt
        (show (⟨i, hin⟩ : Fin s.length) < ⟨i + 1, hb⟩ from
          Fin.mk_lt_mk.2 (Nat.lt_succ_self i))
      simpa using hmono
    have hmem_b : s.getD (i + 1) a ∈ s := by
      rw [List.getD_eq_getElem _ _ hb]
      exact List.getElem_mem _
    constructor
    · exact ⟨a, hmem_a,
        by nlinarith [mul_nonneg (sub_nonneg.2 hile) (sub_nonneg.2 hab)]⟩
    · refine ⟨s.getD (i + 1) a, hmem_b, ?_⟩
      nlinarith [mul_nonneg (by linarith : (0:ℚ) ≤ 1 - (h - (i : ℚ)))
        (sub_nonneg.2 hab)]
  · have hdef : s.getD (i + 1) a = a :=
      List.getD_eq_default _ _ (by omega)
    rw [hdef]
    have he : a + (h - (i : ℚ)) * (a - a) = a := by ring
    rw [he]
    exact ⟨⟨a, hmem_a, le_refl a⟩, ⟨a, hmem_a, le_refl a⟩⟩

lemma quantileQ_between {p : ℚ} (hp0 : 0 ≤ p) (hp1 : p ≤ 1) {xs : List ℚ}
    (hne : xs ≠ []) :
    minQ xs ≤ quantileQ p xs ∧ quantileQ p xs ≤ maxQ xs := by
  have hlpos : 0 < (sortQ xs).length := by
    rw [length_sortQ]; exact List.length_pos.2 hne
  have hn1 : (1 : ℚ) ≤ ((sortQ xs).length : ℚ) := by exact_mod_cast hlpos
  have h0 : 0 ≤ p * (((sortQ xs).length : ℚ) - 1) :=
    mul_nonneg hp0 (by linarith)
  have h1 : p * (((sortQ xs).length : ℚ) - 1) ≤ ((sortQ xs).length : ℚ) - 1 := by
    calc p * (((sortQ xs).length : ℚ) - 1)
        ≤ 1 * (((sortQ xs).length : ℚ) - 1) :=
          mul_le_mul_of_nonneg_right hp1 (by linarith)
      _ = ((sortQ xs).length : ℚ) - 1 := one_mul _
  obtain ⟨⟨x1, hx1s, hx1⟩, x2, hx2s, hx2⟩ :=
    interpAt_between (sorted_sortQ xs) h0 h1
  exact ⟨le_trans (minQ_le x1 (mem_sortQ.1 hx1s)) hx1,
    le_trans hx2 (maxQ_ge x2 (mem_sortQ.1 hx2s))⟩

lemma quantileQ_half_eq_median {xs : List ℚ} (hne : xs ≠ []) :
    quantileQ (1/2) xs = medianQ xs := by
  have hlpos : 0 < (sortQ xs).length := by
    rw [length_sortQ]; exact List.length_pos.2 hne
  rcases Nat.even_or_odd ((sortQ xs).length) with he | ho
  · obtain ⟨k, hk⟩ := he
    have hk1 : 1 ≤ k := by omega
    have hkn : k < (sortQ xs).length := by omega
    have harg : (1/2 : ℚ) * (((sortQ xs).length : ℚ) - 1) = (k : ℚ) - 1/2 := by
      rw [hk]; push_cast; ring
    have hmod : ¬ (sortQ xs).length % 2 = 1 := by omega
    have h2 : (sortQ xs).length / 2 = k := by omega
    unfold quantileQ
    rw [harg, interpAt_half _ k hk1 hkn]
    simp only [medianQ]
    rw [if_neg hmod, h2]
  · obtain ⟨k, hk⟩ := ho
    have harg : (1/2 : ℚ) * (((sortQ xs).length : ℚ) - 1) = (k : ℚ) := by
      rw [hk]; push_cast; ring
    have hmod : (sortQ xs).length % 2 = 1 := by omega
    have h2 : (sortQ xs).length / 2 = k := by omega
    unfold quantileQ
    rw [harg, interpAt_natCast]
    simp only [medianQ]
    rw [if_pos hmod, h2]

lemma length_filterMap_of_isSome (f : Val → Option ℚ) :
    ∀ l : List Val, (∀ a ∈ l, (f a).isSome) → (l.filterMap f).length = l.length
  | [], _ => rfl
  | a :: l, h => by
      obtain ⟨b, hb⟩ := Option.isSome_iff_exists.1 (h a (List.mem_cons_self a l))
      rw [List.filterMap_cons, hb]
      simp only [List.length_cons]
      rw [length_filterMap_of_isSome f l
        (fun x hx => h x (List.mem_cons_of_mem a hx))]

lemma colVals_length_of_set (t : List Row) (j : Fin 15)
    (hall : ∀ r ∈ t, (parseVal (r.num j)).isSome) :
    (colVals t j).length = t.length := by
  have h1 : ((t.map fun r => r.num j).filterMap parseVal).length =
      (t.map fun r => r.num j).length := by
    refine length_filterMap_of_isSome parseVal _ ?_
    intro a ha
    obtain ⟨r, hr, rfl⟩ := List.mem_map.1 ha
    exact hall r hr
  rw [colVals, h1, List.length_map]

/-! ### C9: the Summary Reporter's statistics -/

/-- **C9 (amended).** For every nonempty table whose numeric column
`j` is fully set (the generic situation after normalization — exactly
then pandas' non-null count is the row count), `describe()` computes
the row count, the arithmetic mean, the sample standard deviation with
denominator `n - 1` (NaN exactly when `n < 2`), the minimum, the
25th/50th/75th percentiles by linear interpolation — the 50th being
exactly the standard median — and the maximum; the reporter is a pure
function of its input, so the input is not mutated. -/
theorem describe_statistics (t : List Row) (j : Fin 15) (hne : t ≠ [])
    (hall : ∀ r ∈ t, (parseVal (r.num j)).isSome) :
    specStatsCorrect t j := by
  have hlen : (colVals t j).length = t.length := colVals_length_of_set t j hall
  have hxs_ne : colVals t j ≠ [] := by
    intro h
    apply hne
    apply List.length_eq_zero.1
    rw [← hlen, h]
    rfl
  have hlen_pos : 0 < (colVals t j).length := List.length_pos.2 hxs_ne
  refine ⟨hlen, ?_, ?_, ?_,
    ⟨minQ_mem hxs_ne, fun y hy => minQ_le y hy⟩,
    ⟨maxQ_mem hxs_ne, fun y hy => maxQ_ge y hy⟩,
    quantileQ_half_eq_median hxs_ne,
    quantileQ_between (by norm_num) (by norm_num) hxs_ne,
    quantileQ_between (by norm_num) (by norm_num) hxs_ne⟩
  · show meanQ (colVals t j) * (t.length : ℚ) = (colVals t j).sum
    rw [← hlen]
    exact div_mul_cancel₀ _
      (by exact_mod_cast Nat.pos_iff_ne_zero.1 hlen_pos)
  · show varQ (colVals t j) = none ↔ t.length < 2
    unfold varQ
    rw [hlen]
    by_cases h2 : t.length < 2
    · rw [if_pos h2]
      simp [h2]
    · rw [if_neg h2]
      simp [h2]
  · intro v hv
    have hv' : varQ (colVals t j) = some v := hv
    unfold varQ at hv'
    by_cases hlt : (colVals t j).length < 2
    · rw [if_pos hlt] at hv'
      cases hv'
    · rw [if_neg hlt] at hv'
      have hveq := Option.some.inj hv'
      have hS0 : 0 ≤ ((colVals t j).map fun x => (x - meanQ (colVals t j)) ^ 2).sum := by
        refine List.sum_nonneg ?_
        intro y hy
        obtain ⟨x, hx, rfl⟩ := List.mem_map.1 hy
        exact sq_nonneg _
      have hge2 : 2 ≤ (colVals t j).length := not_lt.1 hlt
      have hden : (0 : ℚ) < ((colVals t j).length : ℚ) - 1 := by
        have h2c : (2 : ℚ) ≤ ((colVals t j).length : ℚ) := by exact_mod_cast hge2
        linarith
      have hv0 : 0 ≤ v := by
        rw [← hveq]
        exact div_nonneg hS0 (le_of_lt hden)
      refine ⟨hv0, ?_, ?_⟩
      · show v * ((t.length : ℚ) - 1) =
          ((colVals t j).map fun x => (x - meanQ (colVals t j)) ^ 2).sum
        rw [← hlen, ← hveq]
        exact div_mul_cancel₀ _ (ne_of_gt hden)
      · exact Real.sq_sqrt (by exact_mod_cast hv0)

/-- A one-row table whose `Age` cell is unset even after normalization
(pandas leaves NaN when a column has no parseable value). -/
def tableC9c : List Row := [rowAllNa]

/-- **C9 counterexample.** `describe()`'s `count` row is the number of
non-null observations, not the row count: on a table whose `Age`
column is entirely unset the reported count is 0 while the table has
1 row, refuting the claim's "count of rows" for arbitrary record
tables. -/
theorem describe_statistics_counterexample :
    (describeTable tableC9c 0).count ≠ tableC9c.length := by decide

/-- A three-row fully set table for the reporter: `Age` values 10, 20,
40. -/
def tableC9 : List Row := [mkRowAS 10 "Gold", mkRowAS 20 "Gold", mkRowAS 40 "Gold"]

/-- **C9 witness.** The reporter theorem applied to the concrete
three-row table. -/
theorem describe_statistics_witness :
    (tableC9 ≠ [] ∧ ∀ r ∈ tableC9, (parseVal (r.num 0)).isSome) ∧
    specStatsCorrect tableC9 0 :=
  ⟨⟨by decide, by decide⟩, describe_statistics tableC9 0 (by decide) (by decide)⟩

end Dashboard
